import Mathlib

/-!
Verification of the interval-algebra and match-analysis core of the
`woodota` repository (`src/utils.py`, `src/dota.py`).

The Python code is shallowly embedded: interval dicts `{start, end}` become
the structure `Iv` (the Python key `end` is embedded as the field `stop`,
since `end` is a Lean keyword), pandas tables become lists of records plus an
explicit column list, and Python exceptions become `Except` values.
-/

namespace Woodota

/-- An interval record `{'start': …, 'end': …}` as used throughout
`utils.py`.  Ticks are integers; the Python dict key `end` is embedded as
the field `stop`. -/
structure Iv where
  start : Int
  stop : Int
deriving DecidableEq, Repr

/-- The lexicographic key `(dct['start'], dct['end'])` used by
`merge_close_intervals`' call to `sorted`. -/
def ivLe (a b : Iv) : Prop :=
  a.start < b.start ∨ (a.start = b.start ∧ a.stop ≤ b.stop)

instance ivLe.decRel : DecidableRel ivLe := fun a b => by
  unfold ivLe; infer_instance

instance ivLe.isTotal : IsTotal Iv ivLe :=
  ⟨fun a b => by unfold ivLe; omega⟩

instance ivLe.isTrans : IsTrans Iv ivLe :=
  ⟨fun a b c hab hbc => by unfold ivLe at *; omega⟩

/-- `sorted(intervals, key=lambda dct: (dct['start'], dct['end']))`.
Python's `sorted` is a stable sort; insertion sort is stable as well, and
since `Iv` carries exactly the two key fields, any sort agreeing with the
key order is extensionally faithful. -/
def sortByStartEnd (l : List Iv) : List Iv :=
  List.insertionSort ivLe l

/-- The loop of `merge_close_intervals` (utils.py:115-126): `prev` is the
running interval, `merged` the flushed output list.  The base case mirrors
the trailing `if not merged or merged[-1] != prev: merged.append(prev)`. -/
def mergeLoop (gap : Int) : Iv → List Iv → List Iv → List Iv
  | prev, [], merged =>
    if merged.getLast? = some prev then merged else merged ++ [prev]
  | prev, current :: rest, merged =>
    if current.start ≤ prev.stop + gap then
      mergeLoop gap ⟨prev.start, max current.stop prev.stop⟩ rest merged
    else
      mergeLoop gap current rest (merged ++ [prev])

/-- `merge_close_intervals(intervals, gap)` from utils.py:106-127. -/
def merge_close_intervals (intervals : List Iv) (gap : Int) : List Iv :=
  if intervals.length < 2 then intervals
  else
    match sortByStartEnd intervals with
    | [] => []
    | p :: rest => mergeLoop gap p rest []

/-- The merge fold exactly as the specification describes it: merge the
running interval with the next whenever `next.start ≤ running.end + gap`
(taking `end = max`), otherwise flush and restart, and always flush the
final running interval. -/
def mergeAlways (gap : Int) : Iv → List Iv → List Iv
  | prev, [] => [prev]
  | prev, current :: rest =>
    if current.start ≤ prev.stop + gap then
      mergeAlways gap ⟨prev.start, max current.stop prev.stop⟩ rest
    else
      prev :: mergeAlways gap current rest

/-- `merge_close_intervals` as the specification words it (sort by
`(start, end)`, fold, always flush the final running interval). -/
def merge_close_intervals_described (intervals : List Iv) (gap : Int) : List Iv :=
  if intervals.length < 2 then intervals
  else
    match sortByStartEnd intervals with
    | [] => []
    | p :: rest => mergeAlways gap p rest

lemma mergeLoop_eq_append (gap : Int) (hg : 0 ≤ gap) :
    ∀ (rest : List Iv) (prev : Iv) (merged : List Iv),
      prev.start ≤ prev.stop →
      (∀ x ∈ rest, x.start ≤ x.stop) →
      (∀ x, merged.getLast? = some x → x.stop + gap < prev.start) →
      mergeLoop gap prev rest merged = merged ++ mergeAlways gap prev rest := by
  intro rest
  induction rest with
  | nil =>
    intro prev merged hwf _ hinv
    simp only [mergeLoop, mergeAlways]
    rw [if_neg]
    intro hEq
    have := hinv prev hEq
    omega
  | cons current rest ih =>
    intro prev merged hwf hrest hinv
    simp only [mergeLoop, mergeAlways]
    by_cases h : current.start ≤ prev.stop + gap
    · rw [if_pos h, if_pos h]
      refine ih ⟨prev.start, max current.stop prev.stop⟩ merged ?_ ?_ ?_
      · show prev.start ≤ max current.stop prev.stop
        exact le_max_of_le_right hwf
      · exact fun x hx => hrest x (List.mem_cons_of_mem _ hx)
      · exact fun x hx => hinv x hx
    · rw [if_neg h, if_neg h]
      rw [ih current (merged ++ [prev]) (hrest current (List.mem_cons_self _ _))
        (fun x hx => hrest x (List.mem_cons_of_mem _ hx)) ?_]
      · rw [List.append_assoc, List.singleton_append]
      · intro x hx
        rw [List.getLast?_concat] at hx
        cases hx
        omega

lemma mem_sortByStartEnd {l : List Iv} {x : Iv} :
    x ∈ sortByStartEnd l ↔ x ∈ l :=
  List.mem_insertionSort ivLe

/-- With well-formed intervals and a nonnegative gap, the guard
`merged[-1] != prev` never blocks the final flush, so the code agrees with
the always-flush description. -/
lemma merge_close_intervals_eq_described (l : List Iv) (gap : Int)
    (hwf : ∀ i ∈ l, i.start ≤ i.stop) (hg : 0 ≤ gap) :
    merge_close_intervals l gap = merge_close_intervals_described l gap := by
  unfold merge_close_intervals merge_close_intervals_described
  by_cases hlen : l.length < 2
  · simp [hlen]
  · simp only [hlen, if_false]
    cases hsort : sortByStartEnd l with
    | nil => rfl
    | cons p rest =>
      have hmem : ∀ x ∈ p :: rest, x.start ≤ x.stop := by
        intro x hx
        apply hwf
        rw [← mem_sortByStartEnd (l := l), hsort]
        exact hx
      show mergeLoop gap p rest [] = mergeAlways gap p rest
      rw [mergeLoop_eq_append gap hg rest p []
        (hmem p (List.mem_cons_self _ _))
        (fun x hx => hmem x (List.mem_cons_of_mem _ hx))
        (by intro x hx; simp at hx)]
      rw [List.nil_append]

/-- Claim C3: `merge_close_intervals` sorts by `(start, end)`, folds
left-to-right merging the running interval with the next whenever
`next.start ≤ running.end + gap` with merged end `max(running.end,
next.end)`, otherwise flushes and restarts, always flushing the final
running interval (established for well-formed intervals and nonnegative
gap as the equality with the described fold); inputs of fewer than two
intervals are returned unchanged; and the two concrete examples from the
specification hold. -/
theorem merge_close_intervals_C3 :
    (∀ (l : List Iv) (gap : Int), l.length < 2 → merge_close_intervals l gap = l) ∧
    (∀ (l : List Iv) (gap : Int), (∀ i ∈ l, i.start ≤ i.stop) → 0 ≤ gap →
      merge_close_intervals l gap = merge_close_intervals_described l gap) ∧
    merge_close_intervals [⟨0, 5⟩, ⟨6, 10⟩] 0 = [⟨0, 5⟩, ⟨6, 10⟩] ∧
    merge_close_intervals [⟨0, 5⟩, ⟨6, 10⟩] 1 = [⟨0, 10⟩] := by
  refine ⟨?_, merge_close_intervals_eq_described, by decide, by decide⟩
  intro l gap hlen
  unfold merge_close_intervals
  simp [hlen]

/-- Claim C3, witness: the hypotheses of the universally quantified parts
hold at concrete inputs and the theorem evaluates there. -/
theorem merge_close_intervals_C3_witness :
    (0:Int) ≤ 5 ∧
    merge_close_intervals [⟨0, 3⟩, ⟨10, 12⟩] 5 =
      merge_close_intervals_described [⟨0, 3⟩, ⟨10, 12⟩] 5 ∧
    merge_close_intervals [⟨7, 9⟩] 0 = [⟨7, 9⟩] :=
  ⟨by decide,
    merge_close_intervals_C3.2.1 [⟨0, 3⟩, ⟨10, 12⟩] 5 (by decide) (by decide),
    merge_close_intervals_C3.1 [⟨7, 9⟩] 0 (by decide)⟩

/-- Total covered duration of a list of intervals:
`sum(i['end'] - i['start'] for i in intervals)` as used in `calculate_iou`. -/
def totalDuration (L : List Iv) : Int :=
  (L.map (fun i => i.stop - i.start)).sum

/-- The subset of the real line covered by a list of intervals, each read as
the closed segment `[start, end]`. -/
def coveredSet (L : List Iv) : Set ℝ :=
  L.foldr (fun i s => Set.Icc (i.start : ℝ) (i.stop : ℝ) ∪ s) ∅

lemma coveredSet_nil : coveredSet [] = ∅ := rfl

lemma coveredSet_cons (a : Iv) (L : List Iv) :
    coveredSet (a :: L) = Set.Icc (a.start : ℝ) (a.stop : ℝ) ∪ coveredSet L := rfl

lemma mem_coveredSet {x : ℝ} {L : List Iv} :
    x ∈ coveredSet L ↔ ∃ i ∈ L, x ∈ Set.Icc (i.start : ℝ) (i.stop : ℝ) := by
  induction L with
  | nil => simp [coveredSet_nil]
  | cons a L ih => simp [coveredSet_cons, ih]

lemma coveredSet_sortByStartEnd (l : List Iv) :
    coveredSet (sortByStartEnd l) = coveredSet l := by
  ext x
  simp [mem_coveredSet, mem_sortByStartEnd]

lemma coveredSet_measurable (L : List Iv) : MeasurableSet (coveredSet L) := by
  induction L with
  | nil => exact MeasurableSet.empty
  | cons a L ih => exact (measurableSet_Icc).union ih

lemma totalDuration_nonneg (L : List Iv) (hwf : ∀ i ∈ L, i.start ≤ i.stop) :
    0 ≤ totalDuration L := by
  induction L with
  | nil => simp [totalDuration]
  | cons a L ih =>
    have h1 := hwf a (List.mem_cons_self _ _)
    have h2 := ih (fun i hi => hwf i (List.mem_cons_of_mem _ hi))
    simp only [totalDuration, List.map_cons, List.sum_cons] at *
    omega

lemma Icc_union_split {a b c d : ℝ} (hac : a ≤ c) (hcb : c ≤ b) :
    Set.Icc a (max b d) = Set.Icc a b ∪ Set.Icc c d := by
  ext x
  simp only [Set.mem_Icc, Set.mem_union, le_max_iff]
  constructor
  · rintro ⟨hax, hx⟩
    rcases le_or_lt x b with h | h
    · exact Or.inl ⟨hax, h⟩
    · refine Or.inr ⟨by linarith, ?_⟩
      rcases hx with h' | h'
      · linarith
      · exact h'
  · rintro (⟨h1, h2⟩ | ⟨h1, h2⟩)
    · exact ⟨h1, Or.inl h2⟩
    · exact ⟨le_trans hac h1, Or.inr h2⟩

lemma mergeAlways_props (gap : Int) :
    ∀ (rest : List Iv) (prev : Iv),
      prev.start ≤ prev.stop →
      (∀ x ∈ rest, x.start ≤ x.stop) →
      (∀ x ∈ rest, prev.start ≤ x.start) →
      List.Sorted ivLe rest →
      (∀ x ∈ mergeAlways gap prev rest, x.start ≤ x.stop) ∧
      List.Pairwise (fun a b : Iv => a.stop + gap < b.start) (mergeAlways gap prev rest) ∧
      (∀ x ∈ mergeAlways gap prev rest, prev.start ≤ x.start) := by
  intro rest
  induction rest with
  | nil =>
    intro prev hwf _ _ _
    refine ⟨?_, ?_, ?_⟩ <;> simp [mergeAlways, hwf]
  | cons current rest ih =>
    intro prev hwf hrest hlb hsorted
    simp only [mergeAlways]
    by_cases h : current.start ≤ prev.stop + gap
    · rw [if_pos h]
      have := ih ⟨prev.start, max current.stop prev.stop⟩
        (le_max_of_le_right hwf)
        (fun x hx => hrest x (List.mem_cons_of_mem _ hx))
        (fun x hx => hlb x (List.mem_cons_of_mem _ hx))
        hsorted.of_cons
      exact this
    · rw [if_neg h]
      have hcur : current.start ≤ current.stop := hrest current (List.mem_cons_self _ _)
      have hlbrest : ∀ x ∈ rest, current.start ≤ x.start := by
        intro x hx
        have := List.rel_of_sorted_cons hsorted x hx
        unfold ivLe at this
        omega
      obtain ⟨hwfL, hpwL, hlbL⟩ := ih current hcur
        (fun x hx => hrest x (List.mem_cons_of_mem _ hx)) hlbrest hsorted.of_cons
      refine ⟨?_, ?_, ?_⟩
      · intro x hx
        rcases List.mem_cons.1 hx with rfl | hx
        · exact hwf
        · exact hwfL x hx
      · refine List.pairwise_cons.2 ⟨?_, hpwL⟩
        intro x hx
        have h1 : current.start ≤ x.start := hlbL x hx
        omega
      · intro x hx
        rcases List.mem_cons.1 hx with rfl | hx
        · exact le_refl _
        · exact le_trans (hlb current (List.mem_cons_self _ _)) (hlbL x hx)

lemma merge_close_intervals_props (l : List Iv) (gap : Int)
    (hwf : ∀ i ∈ l, i.start ≤ i.stop) (hg : 0 ≤ gap) :
    (∀ x ∈ merge_close_intervals l gap, x.start ≤ x.stop) ∧
    List.Pairwise (fun a b : Iv => a.stop + gap < b.start) (merge_close_intervals l gap) := by
  rw [merge_close_intervals_eq_described l gap hwf hg]
  unfold merge_close_intervals_described
  by_cases hlen : l.length < 2
  · simp only [hlen, if_true]
    refine ⟨hwf, ?_⟩
    cases l with
    | nil => simp
    | cons a t =>
      cases t with
      | nil => simp
      | cons b u => simp at hlen; omega
  · simp only [hlen, if_false]
    cases hsort : sortByStartEnd l with
    | nil => simp
    | cons p rest =>
      have hsorted : List.Sorted ivLe (p :: rest) := by
        rw [← hsort]
        exact List.sorted_insertionSort ivLe l
      have hmem : ∀ x ∈ p :: rest, x.start ≤ x.stop := by
        intro x hx
        apply hwf
        rw [← mem_sortByStartEnd (l := l), hsort]
        exact hx
      have hlb : ∀ x ∈ rest, p.start ≤ x.start := by
        intro x hx
        have := List.rel_of_sorted_cons hsorted x hx
        unfold ivLe at this
        omega
      show (∀ x ∈ mergeAlways gap p rest, x.start ≤ x.stop) ∧
        List.Pairwise (fun a b : Iv => a.stop + gap < b.start) (mergeAlways gap p rest)
      have := mergeAlways_props gap rest p (hmem p (List.mem_cons_self _ _))
        (fun x hx => hmem x (List.mem_cons_of_mem _ hx)) hlb hsorted.of_cons
      exact ⟨this.1, this.2.1⟩

lemma mergeAlways_coveredSet :
    ∀ (rest : List Iv) (prev : Iv),
      (∀ x ∈ rest, prev.start ≤ x.start) →
      List.Sorted ivLe rest →
      coveredSet (mergeAlways 0 prev rest) =
        Set.Icc (prev.start : ℝ) (prev.stop : ℝ) ∪ coveredSet rest := by
  intro rest
  induction rest with
  | nil =>
    intro prev _ _
    simp [mergeAlways, coveredSet_cons, coveredSet_nil]
  | cons current rest ih =>
    intro prev hlb hsorted
    simp only [mergeAlways]
    by_cases h : current.start ≤ prev.stop + 0
    · rw [if_pos h]
      rw [ih ⟨prev.start, max current.stop prev.stop⟩
        (fun x hx => hlb x (List.mem_cons_of_mem _ hx)) hsorted.of_cons]
      rw [coveredSet_cons]
      have hcast : ((max current.stop prev.stop : ℤ) : ℝ) =
          max (current.stop : ℝ) (prev.stop : ℝ) := by push_cast; rfl
      show Set.Icc (prev.start : ℝ) ((max current.stop prev.stop : ℤ) : ℝ) ∪ coveredSet rest = _
      rw [hcast, max_comm (current.stop : ℝ) (prev.stop : ℝ)]
      rw [Icc_union_split (a := (prev.start : ℝ)) (b := (prev.stop : ℝ))
        (c := (current.start : ℝ)) (d := (current.stop : ℝ))
        (by exact_mod_cast hlb current (List.mem_cons_self _ _))
        (by exact_mod_cast (by omega : current.start ≤ prev.stop))]
      rw [Set.union_assoc]
    · rw [if_neg h]
      rw [coveredSet_cons, coveredSet_cons]
      rw [ih current (by
        intro x hx
        have := List.rel_of_sorted_cons hsorted x hx
        unfold ivLe at this
        omega) hsorted.of_cons]

lemma coveredSet_merge (l : List Iv) (hwf : ∀ i ∈ l, i.start ≤ i.stop) :
    coveredSet (merge_close_intervals l 0) = coveredSet l := by
  rw [merge_close_intervals_eq_described l 0 hwf (le_refl 0)]
  unfold merge_close_intervals_described
  by_cases hlen : l.length < 2
  · simp [hlen]
  · simp only [hlen, if_false]
    cases hsort : sortByStartEnd l with
    | nil =>
      have := coveredSet_sortByStartEnd l
      rw [hsort] at this
      rw [← this, coveredSet_nil]
    | cons p rest =>
      have hsorted : List.Sorted ivLe (p :: rest) := by
        rw [← hsort]
        exact List.sorted_insertionSort ivLe l
      have hlb : ∀ x ∈ rest, p.start ≤ x.start := by
        intro x hx
        have := List.rel_of_sorted_cons hsorted x hx
        unfold ivLe at this
        omega
      show coveredSet (mergeAlways 0 p rest) = coveredSet l
      rw [mergeAlways_coveredSet rest p hlb hsorted.of_cons]
      rw [← coveredSet_cons, ← hsort, coveredSet_sortByStartEnd]

lemma volume_coveredSet :
    ∀ L : List Iv, (∀ x ∈ L, x.start ≤ x.stop) →
      List.Pairwise (fun a b : Iv => a.stop < b.start) L →
      MeasureTheory.volume (coveredSet L) = ENNReal.ofReal ((totalDuration L : ℤ) : ℝ) := by
  intro L
  induction L with
  | nil =>
    intro _ _
    simp [coveredSet_nil, totalDuration]
  | cons a L ih =>
    intro hwf hpw
    rw [coveredSet_cons]
    have hdisj : Disjoint (Set.Icc (a.start : ℝ) (a.stop : ℝ)) (coveredSet L) := by
      rw [Set.disjoint_left]
      intro x hx1 hx2
      obtain ⟨i, hiL, hxi⟩ := mem_coveredSet.1 hx2
      have hsep : a.stop < i.start := (List.pairwise_cons.1 hpw).1 i hiL
      have h1 : x ≤ (a.stop : ℝ) := hx1.2
      have h2 : (i.start : ℝ) ≤ x := hxi.1
      have : (a.stop : ℝ) < (i.start : ℝ) := by exact_mod_cast hsep
      linarith
    rw [MeasureTheory.measure_union hdisj (coveredSet_measurable L)]
    rw [Real.volume_Icc]
    rw [ih (fun x hx => hwf x (List.mem_cons_of_mem _ hx)) (List.pairwise_cons.1 hpw).2]
    have ha : a.start ≤ a.stop := hwf a (List.mem_cons_self _ _)
    have htd : 0 ≤ totalDuration L :=
      totalDuration_nonneg L (fun x hx => hwf x (List.mem_cons_of_mem _ hx))
    rw [← ENNReal.ofReal_add (by exact_mod_cast sub_nonneg.2 (by exact_mod_cast ha))
      (by exact_mod_cast htd)]
    congr 1
    have : totalDuration (a :: L) = (a.stop - a.start) + totalDuration L := by
      simp [totalDuration]
    rw [this]
    push_cast
    ring

/-- Claim C4: for well-formed intervals (`start ≤ end`) and `gap ≥ 0`, the
output of `merge_close_intervals` is pairwise non-overlapping (each
interval ends strictly before the next starts) and sorted by `start`, and
with `gap = 0` the total covered duration of the output equals the
Lebesgue measure of the union of the input segments. -/
theorem merge_close_intervals_C4 (l : List Iv) (gap : Int)
    (hwf : ∀ i ∈ l, i.start ≤ i.stop) (hg : 0 ≤ gap) :
    List.Pairwise (fun a b : Iv => a.stop < b.start) (merge_close_intervals l gap) ∧
    List.Pairwise (fun a b : Iv => a.start ≤ b.start) (merge_close_intervals l gap) ∧
    MeasureTheory.volume (coveredSet l) =
      ENNReal.ofReal ((totalDuration (merge_close_intervals l 0) : ℤ) : ℝ) := by
  obtain ⟨hwfo, hpw⟩ := merge_close_intervals_props l gap hwf hg
  have hsep : List.Pairwise (fun a b : Iv => a.stop < b.start) (merge_close_intervals l gap) :=
    hpw.imp (fun h => by omega)
  refine ⟨hsep, ?_, ?_⟩
  · refine List.Pairwise.imp_of_mem ?_ hsep
    intro a b ha _ hab
    have := hwfo a ha
    omega
  · obtain ⟨hwf0, hpw0⟩ := merge_close_intervals_props l 0 hwf (le_refl 0)
    rw [← coveredSet_merge l hwf]
    exact volume_coveredSet _ hwf0 (hpw0.imp (fun h => by omega))

/-- Claim C4, witness: the hypotheses hold at a concrete input and the
theorem evaluates there. -/
theorem merge_close_intervals_C4_witness :
    ((∀ i ∈ ([⟨0, 5⟩, ⟨3, 8⟩, ⟨20, 21⟩] : List Iv), i.start ≤ i.stop) ∧ (0:Int) ≤ 2) ∧
    (List.Pairwise (fun a b : Iv => a.stop < b.start)
      (merge_close_intervals [⟨0, 5⟩, ⟨3, 8⟩, ⟨20, 21⟩] 2) ∧
    List.Pairwise (fun a b : Iv => a.start ≤ b.start)
      (merge_close_intervals [⟨0, 5⟩, ⟨3, 8⟩, ⟨20, 21⟩] 2) ∧
    MeasureTheory.volume (coveredSet [⟨0, 5⟩, ⟨3, 8⟩, ⟨20, 21⟩]) =
      ENNReal.ofReal ((totalDuration (merge_close_intervals [⟨0, 5⟩, ⟨3, 8⟩, ⟨20, 21⟩] 0) : ℤ) : ℝ)) :=
  ⟨⟨by decide, by decide⟩,
    merge_close_intervals_C4 [⟨0, 5⟩, ⟨3, 8⟩, ⟨20, 21⟩] 2 (by decide) (by decide)⟩

/-- `get_intersection(interval1, interval2)` from utils.py:136-145. -/
def get_intersection (a b : Iv) : Option Iv :=
  if a.start > b.stop ∨ b.start > a.stop then none
  else some ⟨max a.start b.start, min a.stop b.stop⟩

/-- Claim C7: `get_intersection(a, b)` returns `None` exactly when
`a.start > b.end` or `b.start > a.end`, otherwise
`{start: max(a.start, b.start), end: min(a.end, b.end)}`; with the two
concrete examples from the specification. -/
theorem get_intersection_C7 (a b : Iv) (_ha : a.start ≤ a.stop) (_hb : b.start ≤ b.stop) :
    (get_intersection a b = none ↔ (a.start > b.stop ∨ b.start > a.stop)) ∧
    (¬(a.start > b.stop ∨ b.start > a.stop) →
      get_intersection a b = some ⟨max a.start b.start, min a.stop b.stop⟩) ∧
    get_intersection ⟨0, 10⟩ ⟨5, 15⟩ = some ⟨5, 10⟩ ∧
    get_intersection ⟨0, 5⟩ ⟨10, 15⟩ = none := by
  refine ⟨?_, ?_, by decide, by decide⟩ <;> unfold get_intersection
  · by_cases h : a.start > b.stop ∨ b.start > a.stop <;> simp [h]
  · intro h
    simp [h]

/-- Claim C7, witness: the hypotheses hold at the specification's concrete
example and the theorem evaluates there. -/
theorem get_intersection_C7_witness :
    ((0:Int) ≤ 10 ∧ (5:Int) ≤ 15) ∧
    ((get_intersection ⟨0, 10⟩ ⟨5, 15⟩ = none ↔ ((0:Int) > 15 ∨ (5:Int) > 10)) ∧
      (¬((0:Int) > 15 ∨ (5:Int) > 10) →
        get_intersection ⟨0, 10⟩ ⟨5, 15⟩ = some ⟨max 0 5, min 10 15⟩) ∧
      get_intersection ⟨0, 10⟩ ⟨5, 15⟩ = some ⟨5, 10⟩ ∧
      get_intersection ⟨0, 5⟩ ⟨10, 15⟩ = none) :=
  ⟨⟨by decide, by decide⟩, get_intersection_C7 ⟨0, 10⟩ ⟨5, 15⟩ (by decide) (by decide)⟩

/-- The sort key `dct['start']` used by `get_intersections` (and by
`MatchPlayer.as_attacker`'s `intervals.sort`). -/
def startLe (a b : Iv) : Prop := a.start ≤ b.start

instance startLe.decRel : DecidableRel startLe := fun a b => by
  unfold startLe; infer_instance

instance startLe.isTotal : IsTotal Iv startLe :=
  ⟨fun a b => by unfold startLe; omega⟩

instance startLe.isTrans : IsTrans Iv startLe :=
  ⟨fun a b c hab hbc => by unfold startLe at *; omega⟩

/-- `sorted(intervals, key=lambda dct: dct['start'])`. -/
def sortByStart (l : List Iv) : List Iv :=
  List.insertionSort startLe l

/-- The inner loop of `get_intersections` over (sorted) `intervals2`,
including the early `break` once `i2['start'] > i1['end']`. -/
def innerScan (a : Iv) : List Iv → List Iv
  | [] => []
  | b :: rest =>
    if b.start > a.stop then []
    else
      match get_intersection a b with
      | some i => i :: innerScan a rest
      | none => innerScan a rest

/-- `get_intersections(intervals1, intervals2)` from utils.py:148-159. -/
def get_intersections (l1 l2 : List Iv) : List Iv :=
  ((sortByStart l1).map (fun a => innerScan a (sortByStart l2))).flatten

/-- The full pairwise scan with no early termination: every non-`None`
intersection of an element of `l1` with an element of `l2`, in scan
order. -/
def allIntersections (l1 l2 : List Iv) : List Iv :=
  (l1.map (fun a => l2.filterMap (get_intersection a))).flatten

lemma get_intersection_none_of_right {a b : Iv} (h : b.start > a.stop) :
    get_intersection a b = none := by
  unfold get_intersection
  rw [if_pos (Or.inr h)]

lemma innerScan_eq_filterMap (a : Iv) :
    ∀ l2 : List Iv, List.Sorted startLe l2 →
      innerScan a l2 = l2.filterMap (get_intersection a) := by
  intro l2
  induction l2 with
  | nil => intro _; rfl
  | cons b rest ih =>
    intro hsorted
    simp only [innerScan]
    by_cases hb : b.start > a.stop
    · rw [if_pos hb]
      symm
      rw [List.filterMap_eq_nil_iff]
      intro c hc
      rcases List.mem_cons.1 hc with rfl | hc
      · exact get_intersection_none_of_right hb
      · refine get_intersection_none_of_right ?_
        have := List.rel_of_sorted_cons hsorted c hc
        unfold startLe at this
        omega
    · rw [if_neg hb, List.filterMap_cons]
      cases hab : get_intersection a b with
      | none => exact ih hsorted.of_cons
      | some i => rw [ih hsorted.of_cons]

lemma allIntersections_perm_right (l1 : List Iv) {l2 l2' : List Iv} (h : l2.Perm l2') :
    (allIntersections l1 l2).Perm (allIntersections l1 l2') := by
  unfold allIntersections
  refine List.Perm.flatten_congr ?_
  induction l1 with
  | nil => exact List.Forall₂.nil
  | cons a l1 ih => exact List.Forall₂.cons (h.filterMap _) ih

lemma allIntersections_perm_left {l1 l1' : List Iv} (h : l1.Perm l1') (l2 : List Iv) :
    (allIntersections l1 l2).Perm (allIntersections l1' l2) :=
  (h.map _).flatten

/-- Claim C8: `get_intersections(set1, set2)` equals the full pairwise scan
(no early termination) over the two sorted copies — the `break` once
`b.start > a.end` omits no intersecting pair — and, as a multiset, it is
exactly the non-`None` pairwise intersections of `set1` with `set2`. -/
theorem get_intersections_C8 :
    (∀ l1 l2 : List Iv, get_intersections l1 l2 =
      allIntersections (sortByStart l1) (sortByStart l2)) ∧
    (∀ l1 l2 : List Iv, (get_intersections l1 l2).Perm (allIntersections l1 l2)) := by
  have key : ∀ l1 l2 : List Iv, get_intersections l1 l2 =
      allIntersections (sortByStart l1) (sortByStart l2) := by
    intro l1 l2
    unfold get_intersections allIntersections
    congr 1
    refine List.map_congr_left ?_
    intro a _
    exact innerScan_eq_filterMap a (sortByStart l2)
      (List.sorted_insertionSort startLe l2)
  refine ⟨key, ?_⟩
  intro l1 l2
  rw [key]
  refine List.Perm.trans
    (allIntersections_perm_left (List.perm_insertionSort startLe l1) (sortByStart l2)) ?_
  exact allIntersections_perm_right l1 (List.perm_insertionSort startLe l2)

/-- `calculate_iou(intervals1, intervals2)` from utils.py:162-169, with
Python's float division embedded as exact rational division. -/
def calculate_iou (l1 l2 : List Iv) : ℚ :=
  (totalDuration (get_intersections l1 l2) : ℚ) /
    (totalDuration (merge_close_intervals (l1 ++ l2) 0) : ℚ)

/-- Claim C9, counterexample: `calculate_iou([{0,5}], [{5,10}])` is exactly
`0`, not strictly between 0 and 1: the touching intervals produce the
zero-length intersection `{5,5}` (numerator 0) over the merged union
`{0,10}` (denominator 10). -/
theorem calculate_iou_C9_counterexample :
    calculate_iou [⟨0, 5⟩] [⟨5, 10⟩] = 0 ∧
    ¬(0 < calculate_iou [⟨0, 5⟩] [⟨5, 10⟩]) := by
  have h1 : totalDuration (get_intersections [⟨0, 5⟩] [⟨5, 10⟩]) = 0 := by decide
  have h2 : totalDuration (merge_close_intervals ([⟨0, 5⟩] ++ [⟨5, 10⟩]) 0) = 10 := by
    decide
  unfold calculate_iou
  rw [h1, h2]
  norm_num

/-- Claim C9, amended: `calculate_iou([{0,10}], [{0,10}]) = 1`, and
`calculate_iou([{0,5}], [{5,10}]) = 0`: the shared endpoint yields the
single-point intersection `{5,5}` of zero duration, while the 0-gap merge
union treats the intervals as touching and merges them into `{0,10}` of
duration 10, so the ratio is exactly 0. -/
theorem calculate_iou_C9 :
    calculate_iou [⟨0, 10⟩] [⟨0, 10⟩] = 1 ∧
    calculate_iou [⟨0, 5⟩] [⟨5, 10⟩] = 0 ∧
    get_intersections [⟨0, 5⟩] [⟨5, 10⟩] = [⟨5, 5⟩] ∧
    merge_close_intervals ([⟨0, 5⟩] ++ [⟨5, 10⟩]) 0 = [⟨0, 10⟩] := by
  refine ⟨?_, ?_, by decide, by decide⟩
  · have h1 : totalDuration (get_intersections [⟨0, 10⟩] [⟨0, 10⟩]) = 10 := by decide
    have h2 : totalDuration (merge_close_intervals ([⟨0, 10⟩] ++ [⟨0, 10⟩]) 0) = 10 := by
      decide
    unfold calculate_iou
    rw [h1, h2]
    norm_num
  · have h1 : totalDuration (get_intersections [⟨0, 5⟩] [⟨5, 10⟩]) = 0 := by decide
    have h2 : totalDuration (merge_close_intervals ([⟨0, 5⟩] ++ [⟨5, 10⟩]) 0) = 10 := by
      decide
    unfold calculate_iou
    rw [h1, h2]
    norm_num

/-- A possibly-incomplete interval dict as built by
`convert_binary_mask_to_intervals` (utils.py:78-103): `dict()` is
`⟨none, none⟩`, and the keys `start`/`end` are filled in as the scan
proceeds (`end` embedded as `pstop`). -/
structure PartIv where
  pstart : Option Int
  pstop : Option Int
deriving DecidableEq, Repr

/-- The fresh `dict()` appended by the scan. -/
def emptyPart : PartIv := ⟨none, none⟩

/-- A completed interval as a partial dict. -/
def completeIv (i : Iv) : PartIv := ⟨some i.start, some i.stop⟩

/-- Apply `f` to the final element of a list (mutation of `intervals[-1]`). -/
def setLastPart (f : PartIv → PartIv) : List PartIv → List PartIv
  | [] => []
  | [a] => [f a]
  | a :: rest => a :: setLastPart f rest

/-- One iteration of the scan loop of `convert_binary_mask_to_intervals`
(utils.py:84-91): the state is `(intervals, prev_flag)`, the item is
`(time, flag)`. -/
def maskStep (st : List PartIv × Bool) (item : Int × Bool) : List PartIv × Bool :=
  let intervals := st.1
  let prevFlag := st.2
  let time := item.1
  let flag := item.2
  let intervals1 :=
    if flag = true ∧ prevFlag = false then
      setLastPart (fun last => { last with pstart := some time }) intervals
    else intervals
  let intervals2 :=
    if flag = false ∧ prevFlag = true then
      setLastPart (fun last => { last with pstop := some time }) intervals1 ++ [emptyPart]
    else intervals1
  (intervals2, flag)

/-- `convert_binary_mask_to_intervals(binary_mask)` from utils.py:78-103.
The pandas series is embedded as the list of its `(time, flag)` items in
index order, so `binary_mask.index[-1]` is the time of the last item.
Note the Python variable `last_interval` is captured before the first
`pop`, so the second fix-up block only runs when the first one did not. -/
def convert_binary_mask_to_intervals (mask : List (Int × Bool)) : List PartIv :=
  match mask with
  | [] => []
  | _ :: _ =>
    let intervals := (mask.foldl maskStep ([emptyPart], false)).1
    match intervals.getLast? with
    | none => intervals
    | some last =>
      if last = emptyPart then intervals.dropLast
      else if last.pstart.isSome ∧ last.pstop = none then
        match last.pstart, mask.getLast? with
        | some s, some itemLast =>
          if s ≠ itemLast.1 then
            setLastPart (fun li => { li with pstop := some itemLast.1 }) intervals
          else intervals.dropLast
        | _, _ => intervals
      else intervals

/-- The closed intervals emitted so far together with the still-open start,
as a clean state machine over the `(time, flag)` items. -/
def runPairs : Bool → Option Int → List (Int × Bool) → List Iv × Option Int
  | _, opened, [] => ([], opened)
  | prev, opened, (t, flag) :: rest =>
    if flag = true ∧ prev = false then
      runPairs true (some t) rest
    else if flag = false ∧ prev = true then
      match opened with
      | some s =>
        let r := runPairs false none rest
        (⟨s, t⟩ :: r.1, r.2)
      | none => runPairs false none rest
    else
      runPairs flag opened rest

/-- The scan as the specification describes it: open an interval on each
False→True transition, close it at the next True→False transition; an
interval still open at the end closes at the last index unless it opened
there, in which case it is dropped. -/
def maskScanDescribed (lastTime : Int) (prev : Bool) (opened : Option Int)
    (items : List (Int × Bool)) : List Iv :=
  (runPairs prev opened items).1 ++
    (match (runPairs prev opened items).2 with
     | none => []
     | some s => if s ≠ lastTime then [⟨s, lastTime⟩] else [])

/-- `convert_binary_mask_to_intervals` as the specification words it. -/
def convert_binary_mask_described (mask : List (Int × Bool)) : List Iv :=
  match mask.getLast? with
  | none => []
  | some itemLast => maskScanDescribed itemLast.1 false none mask

lemma setLastPart_concat (f : PartIv → PartIv) :
    ∀ (l : List PartIv) (a : PartIv), setLastPart f (l ++ [a]) = l ++ [f a] := by
  intro l a
  induction l with
  | nil => rfl
  | cons x rest ih =>
    cases rest with
    | nil => rfl
    | cons y rest2 =>
      show x :: setLastPart f ((y :: rest2) ++ [a]) = x :: ((y :: rest2) ++ [f a])
      rw [ih]

lemma foldl_maskStep_eq :
    ∀ (items : List (Int × Bool)) (done : List PartIv) (prev : Bool) (opened : Option Int),
      (prev = true → opened ≠ none) →
      (items.foldl maskStep (done ++ [⟨opened, none⟩], prev)).1 =
        done ++ ((runPairs prev opened items).1.map completeIv)
          ++ [⟨(runPairs prev opened items).2, none⟩] := by
  intro items
  induction items with
  | nil =>
    intro done prev opened _
    simp [runPairs]
  | cons item rest ih =>
    intro done prev opened hinv
    obtain ⟨t, flag⟩ := item
    rw [List.foldl_cons]
    cases flag with
    | true =>
      cases prev with
      | false =>
        have hstep : maskStep (done ++ [⟨opened, none⟩], false) (t, true) =
            (done ++ [⟨some t, none⟩], true) := by
          simp [maskStep, setLastPart_concat]
        rw [hstep, ih done true (some t) (by simp)]
        simp [runPairs]
      | true =>
        have hstep : maskStep (done ++ [⟨opened, none⟩], true) (t, true) =
            (done ++ [⟨opened, none⟩], true) := by
          simp [maskStep]
        rw [hstep, ih done true opened hinv]
        simp [runPairs]
    | false =>
      cases prev with
      | false =>
        have hstep : maskStep (done ++ [⟨opened, none⟩], false) (t, false) =
            (done ++ [⟨opened, none⟩], false) := by
          simp [maskStep]
        rw [hstep, ih done false opened (by simp)]
        simp [runPairs]
      | true =>
        obtain ⟨s, rfl⟩ : ∃ s, opened = some s := by
          cases opened with
          | none => exact absurd rfl (hinv rfl)
          | some s => exact ⟨s, rfl⟩
        have hstep : maskStep (done ++ [⟨some s, none⟩], true) (t, false) =
            ((done ++ [⟨some s, some t⟩]) ++ [emptyPart], false) := by
          simp [maskStep, setLastPart_concat, emptyPart]
        rw [hstep]
        refine Eq.trans (ih (done ++ [({ pstart := some s, pstop := some t } : PartIv)])
          false none (by simp)) ?_
        simp [runPairs, completeIv]

lemma convert_eq_described (mask : List (Int × Bool)) :
    convert_binary_mask_to_intervals mask =
      (convert_binary_mask_described mask).map completeIv := by
  cases mask with
  | nil => rfl
  | cons m0 rest0 =>
    obtain ⟨itemLast, hlast⟩ : ∃ x, (m0 :: rest0).getLast? = some x := by
      cases h : (m0 :: rest0).getLast? with
      | none => simp at h
      | some x => exact ⟨x, rfl⟩
    have hfold : ((m0 :: rest0).foldl maskStep ([emptyPart], false)).1 =
        ((runPairs false none (m0 :: rest0)).1.map completeIv)
          ++ [⟨(runPairs false none (m0 :: rest0)).2, none⟩] := by
      simpa using foldl_maskStep_eq (m0 :: rest0) [] false none (by simp)
    simp only [convert_binary_mask_to_intervals]
    rw [hfold, List.getLast?_concat, hlast]
    unfold convert_binary_mask_described maskScanDescribed
    rw [hlast]
    cases hR2 : (runPairs false none (m0 :: rest0)).2 with
    | none =>
      simp [emptyPart, List.dropLast_concat]
    | some s =>
      simp only [emptyPart]
      rw [if_neg (by simp)]
      rw [if_pos (by simp)]
      by_cases hs : s ≠ itemLast.1
      · rw [if_pos hs, setLastPart_concat, if_pos hs]
        simp [completeIv]
      · rw [if_neg hs, List.dropLast_concat, if_neg hs]
        simp

/-- Claim C5: `convert_binary_mask_to_intervals` opens an interval on each
False→True transition and closes it on the next True→False transition,
closing an interval still open at the end of the series at the last index
unless its start is the last index (then it is dropped) — stated as the
equality with the described transition scan — together with the empty-input
case and the specification's concrete example on `[F,T,T,F,T]` at ticks
`0..4`. -/
theorem convert_binary_mask_C5 :
    (∀ mask : List (Int × Bool),
      convert_binary_mask_to_intervals mask =
        (convert_binary_mask_described mask).map completeIv) ∧
    convert_binary_mask_to_intervals [] = [] ∧
    convert_binary_mask_to_intervals
      [(0, false), (1, true), (2, true), (3, false), (4, true)] =
      [⟨some 1, some 3⟩] :=
  ⟨convert_eq_described, rfl, by decide⟩

/-! ### dota.py: match parsing, identity resolution, action moments -/

/-- The Python exception classes the parsing claims distinguish:
`NotParsedError` (dota.py:16) versus the built-in exceptions other failure
paths raise (`TypeError` from subscripting `None`, `KeyError` from a failed
dict/enum lookup, `ValueError` from `pd.concat` on an empty list). -/
inductive PyErr where
  | notParsedError
  | typeError
  | keyError
  | valueError
deriving DecidableEq, Repr

/-- A decoded replay event as far as `Match.parse` inspects it: whether a
`time` key is present, the `type` tag, the optional `unit` and the `slot`
of `interval` events, and — for `epilogue` events — the steam ids that
`_get_steam_ids_from_epilogue` decodes from the nested `key` payload
(`none` when that payload would not decode). -/
structure Event where
  hasTime : Bool
  type : String
  unit : Option String
  slot : Int
  steamIds : Option (List Int)
deriving DecidableEq, Repr

/-- `e.get('unit')` is truthy: present and a non-empty string. -/
def unitTruthy (e : Event) : Bool :=
  match e.unit with
  | some u => u ≠ ""
  | none => false

/-- Insert-or-overwrite on a Python dict held as an association list in
insertion order: an existing key keeps its position and gets the new
value, a new key is appended. -/
def dictInsert {κ ν : Type} [DecidableEq κ] (k : κ) (v : ν) :
    List (κ × ν) → List (κ × ν)
  | [] => [(k, v)]
  | e :: rest => if e.1 = k then (k, v) :: rest else e :: dictInsert k v rest

/-- `{v: k for k, v in d.items()}` — dict inversion by comprehension,
iterating in insertion order. -/
def invertDict {κ ν : Type} [DecidableEq ν] (d : List (κ × ν)) : List (ν × κ) :=
  d.foldl (fun acc kv => dictInsert kv.2 kv.1 acc) []

/-- Python `d[k]` lookup. -/
def lookupDict {κ ν : Type} [DecidableEq κ] : List (κ × ν) → κ → Option ν
  | [], _ => none
  | e :: rest, k => if e.1 = k then some e.2 else lookupDict rest k

/-- The reading loop of `Match.parse` (dota.py:81-93): `NotParsedError` at
the first event missing `time`; accumulate `unit_to_slot` from
truthy-`unit` `interval` events; remember the last `epilogue` event. -/
def parseLoop : List Event → List (String × Int) → Option Event →
    Except PyErr (List (String × Int) × Option Event)
  | [], uts, epi => .ok (uts, epi)
  | e :: rest, uts, epi =>
    if e.hasTime = false then .error .notParsedError
    else
      parseLoop rest
        (if e.type = "interval" ∧ unitTruthy e then
          match e.unit with
          | some un => dictInsert un e.slot uts
          | none => uts
        else uts)
        (if e.type = "epilogue" then some e else epi)

/-- `{UnitToName[unit].value: slot for unit, slot in unit_to_slot.items()}`
(dota.py:101).  The static `UnitToName` enumeration is the lookup `u`;
an unseen unit raises `KeyError`. -/
def buildNameToSlot (u : String → Option String) :
    List (String × Int) → List (String × Int) → Except PyErr (List (String × Int))
  | [], acc => .ok acc
  | e :: rest, acc =>
    match u e.1 with
    | none => .error .keyError
    | some heroName => buildNameToSlot u rest (dictInsert heroName e.2 acc)

/-- `Match._get_steam_ids_from_epilogue` (dota.py:106-112).  When no
epilogue event was seen, `parse` passes `None` and `epilogue['key']`
raises `TypeError` (`'NoneType' object is not subscriptable`); a present
event whose payload does not decode also raises a non-`NotParsedError`
exception. -/
def get_steam_ids_from_epilogue (epi : Option Event) : Except PyErr (List Int) :=
  match epi with
  | none => .error .typeError
  | some e =>
    match e.steamIds with
    | some ids => .ok ids
    | none => .error .keyError

/-- A constructed `MatchPlayer` (dota.py:181-186): slot, hero name, steam
id, and the unit resolved through `match.slot_to_unit`. -/
structure Player where
  slot : Int
  hero_name : String
  steam_id : Int
  unit : String
deriving DecidableEq, Repr

/-- Python's `zip` over three iterables: truncates to the shortest. -/
def zip3 {α β γ : Type} : List α → List β → List γ → List (α × β × γ)
  | a :: ta, b :: tb, c :: tc => (a, b, c) :: zip3 ta tb tc
  | _, _, _ => []

/-- The player-construction loop body of `Match._construct_players`
(dota.py:114-119), including each `MatchPlayer.__init__`'s
`match.slot_to_unit[slot]` lookup (dota.py:186). -/
def constructGo (slotToUnit : List (Int × String)) :
    List (Int × String × Int) → Except PyErr (List Player)
  | [] => .ok []
  | tr :: rest =>
    match lookupDict slotToUnit tr.1 with
    | none => .error .keyError
    | some un =>
      match constructGo slotToUnit rest with
      | .ok ps => .ok (⟨tr.1, tr.2.1, tr.2.2, un⟩ :: ps)
      | .error err => .error err

/-- `Match._construct_players` (dota.py:114-119):
`zip(slot_to_name.keys(), name_to_slot.keys(), steam_ids)` — Python's
`zip` silently truncates to the shortest input. -/
def construct_players (slotToUnit : List (Int × String)) (slots : List Int)
    (names : List String) (steamIds : List Int) : Except PyErr (List Player) :=
  constructGo slotToUnit (zip3 slots names steamIds)

/-- The state `Match.parse` leaves behind on success (dota.py:98-104). -/
structure ParseResult where
  unitToSlot : List (String × Int)
  slotToUnit : List (Int × String)
  nameToSlot : List (String × Int)
  slotToName : List (Int × String)
  steamIds : List Int
  players : List Player
deriving DecidableEq, Repr

/-- `Match.parse` (dota.py:69-104) over an already-decoded event stream.
The static `UnitToName` enumeration (dota.py:336-466) is abstracted as the
lookup `u`. -/
def parse (u : String → Option String) (events : List Event) :
    Except PyErr ParseResult := do
  let (uts, epi) ← parseLoop events [] none
  if events.isEmpty then
    throw PyErr.notParsedError
  let slotToUnit := invertDict uts
  let nameToSlot ← buildNameToSlot u uts []
  let slotToName := invertDict nameToSlot
  let steamIds ← get_steam_ids_from_epilogue epi
  let players ← construct_players slotToUnit (slotToName.map Prod.fst)
    (nameToSlot.map Prod.fst) steamIds
  pure ⟨uts, slotToUnit, nameToSlot, slotToName, steamIds, players⟩

/-- A stream with one well-formed non-epilogue event: parsing reaches the
roster-extraction step with `epilogue = None`. -/
def noEpilogueEvents : List Event :=
  [⟨true, "other", none, 0, none⟩]

/-- Claim C2, counterexample: on a non-empty stream whose events all carry
`time` but which has no `epilogue` event, `Match.parse` fails with
`TypeError` (subscripting `None` in `_get_steam_ids_from_epilogue`), not
with the distinct `NotParsedError` condition the claim requires. -/
theorem parse_C2_counterexample :
    parse (fun _ => none) noEpilogueEvents = .error .typeError ∧
    (Except.error PyErr.typeError : Except PyErr ParseResult) ≠
      .error .notParsedError := by
  constructor
  · rfl
  · intro h
    cases h

lemma parseLoop_missing_time :
    ∀ (events : List Event) (uts : List (String × Int)) (epi : Option Event),
      (∃ e ∈ events, e.hasTime = false) →
      parseLoop events uts epi = .error .notParsedError := by
  intro events
  induction events with
  | nil =>
    intro uts epi h
    obtain ⟨e, he, _⟩ := h
    cases he
  | cons e rest ih =>
    intro uts epi h
    by_cases hf : e.hasTime = false
    · simp only [parseLoop]
      rw [if_pos hf]
    · simp only [parseLoop]
      rw [if_neg hf]
      apply ih
      obtain ⟨e', he', hf'⟩ := h
      rcases List.mem_cons.1 he' with rfl | he'
      · exact absurd hf' hf
      · exact ⟨e', he', hf'⟩

lemma dictInsert_keys {κ ν : Type} [DecidableEq κ] (k : κ) (v : ν) :
    ∀ (d : List (κ × ν)) (kv : κ × ν), kv ∈ dictInsert k v d → kv.1 = k ∨ kv ∈ d := by
  intro d
  induction d with
  | nil =>
    intro kv h
    simp only [dictInsert, List.mem_singleton] at h
    subst h
    exact Or.inl rfl
  | cons e rest ih =>
    intro kv h
    simp only [dictInsert] at h
    by_cases he : e.1 = k
    · rw [if_pos he] at h
      rcases List.mem_cons.1 h with rfl | h
      · exact Or.inl rfl
      · exact Or.inr (List.mem_cons_of_mem _ h)
    · rw [if_neg he] at h
      rcases List.mem_cons.1 h with rfl | h
      · exact Or.inr (List.mem_cons_self _ _)
      · rcases ih kv h with h1 | h1
        · exact Or.inl h1
        · exact Or.inr (List.mem_cons_of_mem _ h1)

lemma parseLoop_no_epilogue :
    ∀ (events : List Event) (uts : List (String × Int)),
      (∀ e ∈ events, e.hasTime = true) →
      (∀ e ∈ events, e.type ≠ "epilogue") →
      ∃ uts', parseLoop events uts none = .ok (uts', none) ∧
        ∀ kv ∈ uts', (∃ e ∈ events, e.unit = some kv.1) ∨ kv ∈ uts := by
  intro events
  induction events with
  | nil =>
    intro uts _ _
    exact ⟨uts, rfl, fun kv hkv => Or.inr hkv⟩
  | cons e rest ih =>
    intro uts ht hnoepi
    have hte : e.hasTime = true := ht e (List.mem_cons_self _ _)
    have hnee : e.type ≠ "epilogue" := hnoepi e (List.mem_cons_self _ _)
    simp only [parseLoop]
    rw [if_neg (by simp [hte]), if_neg hnee]
    set uts1 := (if e.type = "interval" ∧ unitTruthy e then
        match e.unit with
        | some un => dictInsert un e.slot uts
        | none => uts
      else uts) with huts1
    obtain ⟨uts', hok, hkeys⟩ := ih uts1
      (fun x hx => ht x (List.mem_cons_of_mem _ hx))
      (fun x hx => hnoepi x (List.mem_cons_of_mem _ hx))
    refine ⟨uts', hok, ?_⟩
    intro kv hkv
    rcases hkeys kv hkv with h1 | h1
    · obtain ⟨e', he', hu⟩ := h1
      exact Or.inl ⟨e', List.mem_cons_of_mem _ he', hu⟩
    · rw [huts1] at h1
      by_cases hcond : e.type = "interval" ∧ unitTruthy e
      · rw [if_pos hcond] at h1
        cases hu : e.unit with
        | none => rw [hu] at h1; exact Or.inr h1
        | some un =>
          rw [hu] at h1
          rcases dictInsert_keys un e.slot uts kv h1 with h2 | h2
          · exact Or.inl ⟨e, List.mem_cons_self _ _, by rw [hu, h2]⟩
          · exact Or.inr h2
      · rw [if_neg hcond] at h1
        exact Or.inr h1

lemma buildNameToSlot_ok (u : String → Option String) :
    ∀ (l acc : List (String × Int)), (∀ kv ∈ l, (u kv.1).isSome) →
      ∃ r, buildNameToSlot u l acc = .ok r := by
  intro l
  induction l with
  | nil =>
    intro acc _
    exact ⟨acc, rfl⟩
  | cons kv rest ih =>
    intro acc hkv
    obtain ⟨name, hname⟩ := Option.isSome_iff_exists.1 (hkv kv (List.mem_cons_self _ _))
    simp only [buildNameToSlot]
    rw [hname]
    exact ih (dictInsert name kv.2 acc) (fun kv' h' => hkv kv' (List.mem_cons_of_mem _ h'))

/-- Claim C2, amended: an empty stream and an event missing `time` are
reported through the distinct `NotParsedError`; but a non-empty stream
with no `epilogue` event fails with `TypeError` — subscripting `None` in
`_get_steam_ids_from_epilogue` — not with the not-parsed condition. -/
theorem parse_C2_amended (u : String → Option String) (events : List Event) :
    (events = [] → parse u events = .error .notParsedError) ∧
    ((∃ e ∈ events, e.hasTime = false) → parse u events = .error .notParsedError) ∧
    ((∀ e ∈ events, e.hasTime = true) →
      (∀ e ∈ events, e.type ≠ "epilogue") →
      events ≠ [] →
      (∀ e ∈ events, ∀ un, e.unit = some un → (u un).isSome) →
      parse u events = .error .typeError) := by
  refine ⟨?_, ?_, ?_⟩
  · intro h
    subst h
    rfl
  · intro h
    have hLoop := parseLoop_missing_time events [] none h
    simp only [parse]
    rw [hLoop]
    rfl
  · intro ht hnoepi hne hu
    obtain ⟨uts', hok, hkeys⟩ := parseLoop_no_epilogue events [] ht hnoepi
    have hcond : ∀ kv ∈ uts', (u kv.1).isSome := by
      intro kv hkv
      rcases hkeys kv hkv with h1 | h1
      · obtain ⟨e, he, hun⟩ := h1
        exact hu e he kv.1 hun
      · cases h1
    obtain ⟨r, hbuild⟩ := buildNameToSlot_ok u uts' [] hcond
    have hempty : events.isEmpty = false := by
      cases events with
      | nil => exact absurd rfl hne
      | cons a l => rfl
    simp only [parse]
    rw [hok]
    show (if events.isEmpty = true then throw PyErr.notParsedError
      else _) = Except.error PyErr.typeError
    rw [hempty]
    simp only [if_false, Bool.false_eq_true]
    rw [hbuild]
    rfl

/-- Claim C2, witness: the amended theorem applied to a concrete stream
containing an interval event and no epilogue. -/
theorem parse_C2_witness :
    parse (fun s => if s = "axe" then some "npc_dota_hero_axe" else none)
      [⟨true, "interval", some "axe", 3, none⟩] = .error .typeError :=
  (parse_C2_amended (fun s => if s = "axe" then some "npc_dota_hero_axe" else none)
    [⟨true, "interval", some "axe", 3, none⟩]).2.2
    (by decide) (by decide) (by decide) (by decide)

lemma zip3_length {α β γ : Type} :
    ∀ (a : List α) (b : List β) (c : List γ),
      (zip3 a b c).length = min a.length (min b.length c.length) := by
  intro a
  induction a with
  | nil =>
    intro b c
    simp [zip3]
  | cons x ta ih =>
    intro b c
    cases b with
    | nil => simp [zip3]
    | cons y tb =>
      cases c with
      | nil => simp [zip3]
      | cons z tc =>
        simp only [zip3, List.length_cons, ih]
        omega

lemma zip3_mem_fst {α β γ : Type} :
    ∀ (a : List α) (b : List β) (c : List γ) (tr : α × β × γ),
      tr ∈ zip3 a b c → tr.1 ∈ a := by
  intro a
  induction a with
  | nil =>
    intro b c tr h
    simp [zip3] at h
  | cons x ta ih =>
    intro b c tr h
    cases b with
    | nil => simp [zip3] at h
    | cons y tb =>
      cases c with
      | nil => simp [zip3] at h
      | cons z tc =>
        simp only [zip3] at h
        rcases List.mem_cons.1 h with rfl | h
        · exact List.mem_cons_self _ _
        · exact List.mem_cons_of_mem _ (ih tb tc tr h)

lemma constructGo_eq_map (slotToUnit : List (Int × String)) :
    ∀ triples : List (Int × String × Int),
      (∀ tr ∈ triples, (lookupDict slotToUnit tr.1).isSome) →
      constructGo slotToUnit triples =
        .ok (triples.map fun tr =>
          ⟨tr.1, tr.2.1, tr.2.2, (lookupDict slotToUnit tr.1).getD ""⟩) := by
  intro triples
  induction triples with
  | nil =>
    intro _
    rfl
  | cons tr rest ih =>
    intro hres
    obtain ⟨un, hun⟩ := Option.isSome_iff_exists.1 (hres tr (List.mem_cons_self _ _))
    simp only [constructGo]
    rw [hun, ih (fun x hx => hres x (List.mem_cons_of_mem _ hx))]
    simp [hun]

/-- The static `UnitToName` lookup restricted to the single unit the
counterexample stream mentions. -/
def exLookup : String → Option String :=
  fun s => if s = "axe" then some "npc_dota_hero_axe" else none

/-- A stream resolving one slot whose epilogue roster is empty: a roster
shorter than the slot count. -/
def shortRosterEvents : List Event :=
  [⟨true, "interval", some "axe", 0, none⟩,
   ⟨true, "epilogue", none, 0, some []⟩]

/-- The parse state actually produced for `shortRosterEvents`. -/
def shortRosterResult : ParseResult :=
  ⟨[("axe", 0)], [(0, "axe")], [("npc_dota_hero_axe", 0)],
   [(0, "npc_dota_hero_axe")], [], []⟩

/-- Claim C6, counterexample: with one resolved slot and an epilogue
roster of zero external ids, parsing succeeds (`ok`, no failure of any
kind) and silently truncates the player list to empty — the number of
resolved external ids (0) differs from the number of resolved slots (1)
and resolution does not fail. -/
theorem construct_players_C6_counterexample :
    parse exLookup shortRosterEvents = .ok shortRosterResult ∧
    shortRosterResult.steamIds.length = 0 ∧
    shortRosterResult.slotToName.length = 1 ∧
    shortRosterResult.players = [] := by
  refine ⟨by rfl, by rfl, by rfl, by rfl⟩

/-- Claim C6, amended: `_construct_players` zips the resolved slots, hero
names and roster ids, silently truncating to the shortest input: it
returns `ok` with exactly `min(#slots, #names, #ids)` players (each pairing
the positional slot, name, id and looked-up unit), so a roster shorter
than the slot count yields a truncated player list rather than a
failure. -/
theorem construct_players_C6_amended (slotToUnit : List (Int × String))
    (slots : List Int) (names : List String) (steamIds : List Int)
    (hres : ∀ s ∈ slots, (lookupDict slotToUnit s).isSome) :
    construct_players slotToUnit slots names steamIds =
      .ok ((zip3 slots names steamIds).map fun tr =>
        ⟨tr.1, tr.2.1, tr.2.2, (lookupDict slotToUnit tr.1).getD ""⟩) ∧
    ((zip3 slots names steamIds).map fun tr =>
      (⟨tr.1, tr.2.1, tr.2.2, (lookupDict slotToUnit tr.1).getD ""⟩ : Player)).length =
      min slots.length (min names.length steamIds.length) := by
  constructor
  · exact constructGo_eq_map slotToUnit (zip3 slots names steamIds)
      (fun tr htr => hres tr.1 (zip3_mem_fst slots names steamIds tr htr))
  · rw [List.length_map, zip3_length]

/-- Claim C6, witness: the amended theorem applied with one resolved slot
and an empty roster — zero players, no failure. -/
theorem construct_players_C6_witness :
    (∀ s ∈ ([0] : List Int), (lookupDict [((0 : Int), "axe")] s).isSome) ∧
    (construct_players [((0 : Int), "axe")] [0] ["npc_dota_hero_axe"] [] =
      .ok ((zip3 [(0 : Int)] ["npc_dota_hero_axe"] ([] : List Int)).map fun tr =>
        ⟨tr.1, tr.2.1, tr.2.2, (lookupDict [((0 : Int), "axe")] tr.1).getD ""⟩) ∧
    ((zip3 [(0 : Int)] ["npc_dota_hero_axe"] ([] : List Int)).map fun tr =>
      (⟨tr.1, tr.2.1, tr.2.2, (lookupDict [((0 : Int), "axe")] tr.1).getD ""⟩ : Player)).length =
      min ([0] : List Int).length (min (["npc_dota_hero_axe"] : List String).length
        ([] : List Int).length)) :=
  ⟨by decide,
    construct_players_C6_amended [((0 : Int), "axe")] [0] ["npc_dota_hero_axe"] []
      (by decide)⟩

/-- One row of a player's `as_target` table.  Modelled from the spec:
`attacks.py` (`find_attacks`, spec §4.4) is not among the sources, so the
content of each player's "as target" table is an arbitrary input; what
dota.py consumes from a row is `start`, `end` (embedded as `stop`),
`target_dead` and the `attacker_heroes` collection (players identified by
slot). -/
structure AttackWindow where
  start : Int
  stop : Int
  target_dead : Bool
  attacker_heroes : List Int
deriving DecidableEq, Repr

/-- The sort key `dct['start']` of `intervals.sort` in
`MatchPlayer.as_attacker` (dota.py:307). -/
def awStartLe (a b : AttackWindow) : Prop := a.start ≤ b.start

instance awStartLe.decRel : DecidableRel awStartLe := fun a b => by
  unfold awStartLe; infer_instance

instance awStartLe.isTotal : IsTotal AttackWindow awStartLe :=
  ⟨fun a b => by unfold awStartLe; omega⟩

instance awStartLe.isTrans : IsTrans AttackWindow awStartLe :=
  ⟨fun a b c hab hbc => by unfold awStartLe at *; omega⟩

/-- `MatchPlayer.as_attacker` (dota.py:298-312) at row level: scan every
player's `as_target` table in order, collect the rows whose
`attacker_heroes` contain this player, and sort by `start`. -/
def as_attacker (players : List Int) (asTarget : Int → List AttackWindow)
    (p : Int) : List AttackWindow :=
  List.insertionSort awStartLe
    ((players.map (fun q => (asTarget q).filter
      (fun w => w.attacker_heroes.contains p))).flatten)

/-- The `df_escapes` filter of `MatchPlayer.action_moments` (dota.py:317-319):
`(~target_dead) & attacker_heroes`, where pandas coerces the object column
of attacker sets through `astype(bool)` — set truthiness, i.e. non-empty. -/
def escape_windows (asTarget : Int → List AttackWindow) (p : Int) : List AttackWindow :=
  (asTarget p).filter (fun w => !w.target_dead && !w.attacker_heroes.isEmpty)

/-- The `df_attacks` filter of `MatchPlayer.action_moments` (dota.py:320-322):
the player's "as attacker" rows with `target_dead`. -/
def kill_windows (players : List Int) (asTarget : Int → List AttackWindow)
    (p : Int) : List AttackWindow :=
  (as_attacker players asTarget p).filter (fun w => w.target_dead)

/-- A `TimeTable` as far as the action-moment pipeline inspects it: its
column list, its `start`/`end` row content, and its `time` column.
`TimeTable.__init__` appends a `ticks` column when absent
(utils.py:60-64). -/
structure MTable where
  cols : List String
  rows : List Iv
  times : List Int
deriving DecidableEq, Repr

/-- `TimeTable([])`: no rows and only the injected `ticks` column. -/
def emptyTimeTable : MTable := ⟨["ticks"], [], []⟩

/-- `MatchPlayer.action_moments` (dota.py:314-333).  `df_escapes` is
computed and then discarded (the concat with it is commented out:
`df_moments = df_attacks`, dota.py:323-324); the `MERGE_GAP` constant
comes from the absent `settings.py` and is the parameter `gap`. -/
def player_action_moments (players : List Int) (asTarget : Int → List AttackWindow)
    (gap : Int) (p : Int) : MTable :=
  let _df_escapes := escape_windows asTarget p
  let dfMoments := kill_windows players asTarget p
  if dfMoments.isEmpty then emptyTimeTable
  else
    let moments := merge_close_intervals (dfMoments.map (fun w => Iv.mk w.start w.stop)) gap
    ⟨["start", "end", "ticks", "time"], moments, moments.map (fun i => i.start)⟩

/-- The per-entity action moments as the specification words them: the
"as attacker" windows filtered to `target_dead`, projected to
`{start, end}` and merged with the configured gap. -/
def player_action_moments_claimed (players : List Int)
    (asTarget : Int → List AttackWindow) (gap : Int) (p : Int) : List Iv :=
  merge_close_intervals
    (((as_attacker players asTarget p).filter (fun w => w.target_dead)).map
      (fun w => Iv.mk w.start w.stop)) gap

/-- A two-player scenario in which player 0 escapes an attack by player 1:
a non-empty escapes table and no kill participation. -/
def exAsTarget : Int → List AttackWindow :=
  fun q => if q = 0 then [⟨0, 5, false, [1]⟩] else []

/-- Claim C1: every player's action-moments table is exactly the
"as attacker" windows filtered to `target_dead`, projected to
`{start, end}`, merged with the configured gap, and stamped with
`time = start`; and the escape-based windows, though computed, contribute
nothing — concretely, a player with a non-empty escapes table and no kill
windows gets an empty table. -/
theorem action_moments_C1 :
    (∀ (players : List Int) (asTarget : Int → List AttackWindow) (gap : Int) (p : Int),
      (player_action_moments players asTarget gap p).rows =
        player_action_moments_claimed players asTarget gap p ∧
      (player_action_moments players asTarget gap p).times =
        (player_action_moments players asTarget gap p).rows.map (fun i => i.start)) ∧
    (escape_windows exAsTarget 0 ≠ [] ∧
      player_action_moments [0, 1] exAsTarget 10 0 = emptyTimeTable) := by
  constructor
  · intro players asTarget gap p
    unfold player_action_moments player_action_moments_claimed
    by_cases h : (kill_windows players asTarget p).isEmpty
    · have h' : kill_windows players asTarget p = [] := by
        cases hk : kill_windows players asTarget p with
        | nil => rfl
        | cons a l => rw [hk] at h; cases h
      simp only [h, if_true]
      unfold kill_windows at h'
      rw [h']
      constructor <;> rfl
    · simp only [h, if_false, Bool.false_eq_true]
      exact ⟨rfl, trivial⟩
  · constructor
    · decide
    · decide

/-- `acc ++ [c for c in cs if c not in acc]` folded over the column lists:
how `pd.concat` unions columns in order of first appearance. -/
def colsUnion (css : List (List String)) : List String :=
  css.foldl (fun acc cs => acc ++ cs.filter (fun c => !acc.contains c)) []

/-- `pd.concat(tables)` as far as the pipeline inspects it: `ValueError`
on an empty list, otherwise the union of the columns and the concatenation
of the rows. -/
def concat_tables (ts : List MTable) : Except PyErr MTable :=
  match ts with
  | [] => .error .valueError
  | _ :: _ =>
    .ok ⟨colsUnion (ts.map MTable.cols), (ts.map MTable.rows).flatten,
      (ts.map MTable.times).flatten⟩

/-- `df[['start', 'end']]`-style column selection: `KeyError` when a
requested column is missing. -/
def select_columns (t : MTable) (cs : List String) : Except PyErr MTable :=
  if cs.all (fun c => t.cols.contains c) then
    .ok ⟨cs, t.rows, if cs.contains "time" then t.times else []⟩
  else .error .keyError

/-- `Match.action_moments` (dota.py:131-141): concatenate the players'
tables, select `start`/`end`, merge with `MERGE_GAP`, rebuild a
`TimeTable` and stamp `time = start`. -/
def match_action_moments (tables : List MTable) (gap : Int) : Except PyErr MTable := do
  let c ← concat_tables tables
  let sel ← select_columns c ["start", "end"]
  let moments := merge_close_intervals sel.rows gap
  pure ⟨["start", "end", "ticks", "time"], moments, moments.map (fun i => i.start)⟩

lemma colsUnion_go_fixed :
    ∀ (css : List (List String)) (acc : List String),
      (∀ cs ∈ css, ∀ c ∈ cs, acc.contains c = true) →
      css.foldl (fun acc cs => acc ++ cs.filter (fun c => !acc.contains c)) acc = acc := by
  intro css
  induction css with
  | nil =>
    intro acc _
    rfl
  | cons cs rest ih =>
    intro acc hall
    have hstep : acc ++ cs.filter (fun c => !acc.contains c) = acc := by
      have : cs.filter (fun c => !acc.contains c) = [] := by
        rw [List.filter_eq_nil_iff]
        intro c hc
        simpa using hall cs (List.mem_cons_self _ _) c hc
      rw [this, List.append_nil]
    rw [List.foldl_cons, hstep]
    exact ih acc (fun cs' h' => hall cs' (List.mem_cons_of_mem _ h'))

lemma colsUnion_all_ticks :
    ∀ (css : List (List String)), css ≠ [] → (∀ cs ∈ css, cs = ["ticks"]) →
      colsUnion css = ["ticks"] := by
  intro css hne hall
  cases css with
  | nil => exact absurd rfl hne
  | cons cs0 rest =>
    have h0 : cs0 = ["ticks"] := hall cs0 (List.mem_cons_self _ _)
    unfold colsUnion
    rw [List.foldl_cons, h0]
    show List.foldl _ ["ticks"] rest = ["ticks"]
    refine colsUnion_go_fixed rest ["ticks"] ?_
    intro cs h c hc
    rw [hall cs (List.mem_cons_of_mem _ h)] at hc
    rcases List.mem_singleton.1 hc with rfl
    rfl

/-- Claim C10: when every player's action-moments table is the empty
`TimeTable` (no kill-participation windows anywhere), `Match.action_moments`
does not return an empty result: the concatenation of the empty tables
carries only the `ticks` column, so selecting `start`/`end` raises
(`KeyError`), and the public query surface fails. -/
theorem match_action_moments_C10 (players : List Int)
    (asTarget : Int → List AttackWindow) (gap : Int)
    (hne : players ≠ [])
    (hemp : ∀ p ∈ players, player_action_moments players asTarget gap p = emptyTimeTable) :
    match_action_moments (players.map (player_action_moments players asTarget gap)) gap =
      .error .keyError := by
  cases players with
  | nil => exact absurd rfl hne
  | cons p0 rest =>
    have hcols : ∀ cs ∈ ((p0 :: rest).map
        (player_action_moments (p0 :: rest) asTarget gap)).map MTable.cols,
        cs = ["ticks"] := by
      intro cs hcs
      obtain ⟨t, ht, rfl⟩ := List.mem_map.1 hcs
      obtain ⟨p, hp, rfl⟩ := List.mem_map.1 ht
      rw [hemp p hp]
      rfl
    have hconcat : concat_tables ((p0 :: rest).map
        (player_action_moments (p0 :: rest) asTarget gap)) =
        .ok ⟨["ticks"],
          (((p0 :: rest).map (player_action_moments (p0 :: rest) asTarget gap)).map
            MTable.rows).flatten,
          (((p0 :: rest).map (player_action_moments (p0 :: rest) asTarget gap)).map
            MTable.times).flatten⟩ := by
      show Except.ok _ = _
      rw [colsUnion_all_ticks _ (by simp) hcols]
    simp only [match_action_moments]
    rw [hconcat]
    rfl

/-- Claim C10, witness: a one-player match with no attack windows at all —
the hypotheses hold and the match-level query errors. -/
theorem match_action_moments_C10_witness :
    (([7] : List Int) ≠ [] ∧
      (∀ p ∈ ([7] : List Int),
        player_action_moments [7] (fun _ => []) 0 p = emptyTimeTable)) ∧
    match_action_moments ([7].map (player_action_moments [7] (fun _ => []) 0)) 0 =
      .error .keyError :=
  ⟨⟨by decide, by decide⟩,
    match_action_moments_C10 [7] (fun _ => []) 0 (by decide) (by decide)⟩

end Woodota
